import Mathlib

/-!
Verification of the Archiveopteryx core protocol and delivery engine
against its natural-language specification.

Strings of the C++ sources (class EString) are embedded as `List Char`.
Out-of-range indexing yields the NUL character, as EString's operator[]
does.  Definitions follow the source files; the few library routines
that are not part of the sources (Buffer::removeLine, EStringList::split,
EString::number) are modelled from their documented behaviour and marked
as such in their doc comments.
-/

namespace Aox

/-- Embedding of EString::operator[]: out-of-range access returns NUL. -/
def eGet (s : List Char) (i : Nat) : Char := s.getD i (Char.ofNat 0)

/-- Embedding of EString::mid( start, len ): substring of at most `len`
characters starting at index `start`. -/
def eMid (s : List Char) (start len : Nat) : List Char := (s.drop start).take len

/-- Decision for the character range 0-9, as the C++ comparisons
`c >= '0' && c <= '9'` do. -/
def isDigitCh (c : Char) : Bool := decide ('0' ≤ c) && decide (c ≤ '9')

/-- Numeric value of a digit character. -/
def digitVal (c : Char) : Nat := c.toNat - 48

/-- Modelled from the spec: EString::number (not among the sources)
parses an unsigned decimal number; it fails on an empty string, on a
non-digit, and on 32-bit overflow. -/
def eNumber (s : List Char) : Option Nat :=
  if s ≠ [] ∧ s.all isDigitCh then
    let v := s.foldl (fun a c => a * 10 + digitVal c) 0
    if v ≤ 4294967295 then some v else none
  else none

/-- Embedding of EString::find( char ): index of the first occurrence,
or -1 when the character does not occur. -/
def eFind (s : List Char) (c : Char) : Int :=
  match s.findIdx? (· = c) with
  | some i => (i : Int)
  | none => -1

/-! ## SASL PLAIN (src/sasl/plain.cpp) -/

/-- Modelled from the spec: EStringList::split (not among the sources)
splits at every occurrence of the separator character, keeping empty
fields, so the number of fields is the number of separators plus one. -/
def splitNul : List Char → List (List Char)
  | [] => [[]]
  | c :: t =>
    if c = Char.ofNat 0 then [] :: splitNul t
    else
      match splitNul t with
      | [] => [[c]]
      | f :: r => (c :: f) :: r

/-- States of SaslMechanism used by Plain: the constructor starts in
AwaitingInitialResponse, parseResponse moves to Authenticating or
Failed. -/
inductive SaslState where
  | awaitingInitialResponse
  | authenticating
  | failed
  deriving DecidableEq, Repr

/-- The observable state of a Plain mechanism object: its SaslMechanism
state and the login/secret recorded by setLogin/setSecret. -/
structure PlainMech where
  st : SaslState
  login : Option (List Char)
  secret : Option (List Char)
  deriving DecidableEq, Repr

/-- Embedding of Plain::parse: split the response at NUL bytes, require
exactly three fields, a non-empty authentication id and password, and
replace an empty authorization id by the authentication id. -/
def plainParse (response : List Char) :
    Option (List Char × List Char × List Char) :=
  match splitNul response with
  | [a, n, p] =>
    if n = [] ∨ p = [] then none
    else some (if a = [] then n else a, n, p)
  | _ => none

/-- Embedding of Plain::parseResponse: on parse failure or when the two
identities differ, the state becomes Failed and login/secret are left
untouched; otherwise the state becomes Authenticating and login/secret
are recorded. -/
def plainParseResponse (m : PlainMech) (response : List Char) : PlainMech :=
  match plainParse response with
  | none => { m with st := .failed }
  | some (a, n, p) =>
    if n ≠ a then { m with st := .failed }
    else { st := .authenticating, login := some n, secret := some p }

/-! ## IMAP client capabilities (src/unnamed/part_001, IMAP::setClientSupports) -/

/-- The client capabilities tracked by the IMAP server.  Modelled from
the spec and from the uses in the source (the enum lives in imap.h,
which is not among the sources): Condstore and QResync are the only
members the code mentions. -/
inductive ClientCapability where
  | condstore
  | qresync
  deriving DecidableEq, Repr

/-- The capability table: IMAPData initializes every entry to false. -/
def initialCaps : ClientCapability → Bool := fun _ => false

/-- Embedding of IMAP::clientSupports. -/
def clientSupports (caps : ClientCapability → Bool) (c : ClientCapability) : Bool :=
  caps c

/-- Embedding of IMAP::setClientSupports: records the capability, and
QResync additionally records Condstore. -/
def setClientSupports (caps : ClientCapability → Bool) (c : ClientCapability) :
    ClientCapability → Bool :=
  fun x =>
    if x = c then true
    else if c = .qresync ∧ x = .condstore then true
    else caps x

/-- Applies a sequence of setClientSupports calls, the only operation in
the source that writes the capability table. -/
def applyCaps (caps : ClientCapability → Bool) :
    List ClientCapability → (ClientCapability → Bool)
  | [] => caps
  | c :: t => applyCaps (setClientSupports caps c) t

/-! ## IMAP commands and response sequencing (src/unnamed/part_001) -/

/-- Command states, as in the Command class (Unparsed, Blocked,
Executing, Finished, Retired). -/
inductive CmdState where
  | unparsed
  | blocked
  | executing
  | finished
  | retired
  deriving DecidableEq, Repr

/-- The fields of a Command that IMAP::emitResponses and
IMAP::runCommands consult: tag(), name(), group(), state(), usesMsn(),
and ok().  The Command class itself is not among the sources; these
accessors are used as opaque per-command data.  parse() is modelled as
having no observable effect beyond the pre-determined ok() flag. -/
structure Cmd where
  tag : List Char
  name : List Char
  group : Nat
  state : CmdState
  usesMsn : Bool
  ok : Bool
  deriving DecidableEq, Repr

/-- Embedding of IMAP::commands(): leading Retired commands are shifted
off before the list is handed out. -/
def commandsView (cs : List Cmd) : List Cmd :=
  cs.dropWhile (fun c => decide (c.state = .retired))

/-- Embedding of the can/cannot scan at the top of IMAP::emitResponses.
The loop runs while commands remain and `cannot` is unset; the result
is the pair (can, cannot). -/
def expungePermitted : List Cmd → Bool → Bool × Bool
  | [], can => (can, false)
  | c :: t, can =>
    if c.state = .executing ∧ c.name = "idle".toList then
      expungePermitted t true
    else if c.state = .executing then (can, true)
    else if c.group = 2 ∨ c.group = 3 then (can, true)
    else if c.usesMsn = true ∧ c.name ≠ "copy".toList then (can, true)
    else if c.state = .finished ∧ c.tag ≠ [] then expungePermitted t true
    else expungePermitted t can

/-- The can-send-expunge predicate of IMAP::emitResponses: the scan
result with `cannot` overriding `can`. -/
def canSendExpunge (cs : List Cmd) : Bool :=
  let p := expungePermitted cs false
  p.1 && !p.2

/-- An ImapResponse as consumed by IMAP::emitResponses: the meaningful,
changesMsn and sent flags and the response text. -/
structure ImapResponse where
  meaningful : Bool
  changesMsn : Bool
  sent : Bool
  text : List Char
  deriving DecidableEq, Repr

/-- Embedding of the response-emission loop of IMAP::emitResponses:
returns the chunks written to the write buffer and the responses still
queued afterwards.  Responses that are not meaningful, or were already
sent, are taken off the queue without output; an unsent meaningful
response is emitted when `can` holds or it does not change MSNs, and
kept otherwise. -/
def emitLoop (can : Bool) : List ImapResponse → List (List Char) × List ImapResponse
  | [] => ([], [])
  | r :: t =>
    if ¬ r.meaningful then emitLoop can t
    else if r.sent = false ∧ (can ∨ r.changesMsn = false) then
      let p := emitLoop can t
      ((if r.text ≠ [] then ["* ".toList ++ r.text ++ "\r\n".toList] else []) ++ p.1,
       p.2)
    else
      let p := emitLoop can t
      (p.1, if r.sent then p.2 else r :: p.2)

/-- Embedding of IMAP::emitResponses.  The trailing
checkUntaggedResponses sweep over the commands mutates only command
internals outside the sources and is not modelled. -/
def emitResponses (bugNoUnsolicited : Bool) (cs : List Cmd)
    (rs : List ImapResponse) : List (List Char) × List ImapResponse :=
  if bugNoUnsolicited ∧ commandsView cs = [] then ([], rs)
  else emitLoop (canSendExpunge (commandsView cs)) rs

/-- The claim-level can-send-expunge predicate, written from the spec
wording: true if an IDLE is executing or a finished tagged command is
pending, false if any other command is executing, any command has group
2 or 3, or any command uses MSNs and is not copy (the false conditions
overriding the true ones). -/
def specCanSendExpunge (cs : List Cmd) : Prop :=
  ((∃ c ∈ cs, c.state = .executing ∧ c.name = "idle".toList) ∨
   (∃ c ∈ cs, c.state = .finished ∧ c.tag ≠ []))
  ∧ ¬ (∃ c ∈ cs, c.state = .executing ∧ c.name ≠ "idle".toList)
  ∧ ¬ (∃ c ∈ cs, c.group = 2 ∨ c.group = 3)
  ∧ ¬ (∃ c ∈ cs, c.usesMsn = true ∧ c.name ≠ "copy".toList)

/-- Sanity facts about IDLE that hold of the program (the idle handler
neither parses message sets nor belongs to a mutually exclusive group):
used as a hypothesis because the Command subclasses are not among the
sources. -/
def idleSane (cs : List Cmd) : Prop :=
  ∀ c ∈ cs, c.name = "idle".toList →
    c.group ≠ 2 ∧ c.group ≠ 3 ∧ c.usesMsn = false

/-- Per-command condition making the emitResponses scan set `cannot`,
with the guards of the else-if chain made explicit. -/
def cannotCmd (c : Cmd) : Prop :=
  (c.state = .executing ∧ c.name ≠ "idle".toList)
  ∨ (c.state ≠ .executing ∧ (c.group = 2 ∨ c.group = 3))
  ∨ (c.state ≠ .executing ∧ ¬ (c.group = 2 ∨ c.group = 3)
      ∧ c.usesMsn = true ∧ c.name ≠ "copy".toList)

/-- Per-command condition making the emitResponses scan set `can`,
with the guards of the else-if chain made explicit. -/
def canCmd (c : Cmd) : Prop :=
  (c.state = .executing ∧ c.name = "idle".toList)
  ∨ (c.state ≠ .executing ∧ ¬ (c.group = 2 ∨ c.group = 3)
      ∧ ¬ (c.usesMsn = true ∧ c.name ≠ "copy".toList)
      ∧ c.state = .finished ∧ c.tag ≠ [])

/-! ## IMAP command scheduler (src/unnamed/part_001, IMAP::runCommands) -/

/-- Embedding of the rate-limit computation in IMAP::runCommands:
the NO/BAD count bounded at 16, offset by the time since the last bad
command, clamped at zero, and raised to at least 4 for an authenticated
user without an inbox. -/
def delayNeeded (numBad lastBadTime now : Nat) (userNoInbox : Bool) : Int :=
  let dn1 : Int := if (numBad : Int) > 16 then 16 else (numBad : Int)
  let dn2 : Int := (lastBadTime : Int) + dn1 - (now : Int)
  let dn3 : Int := if dn2 < 0 then 0 else dn2
  if userNoInbox ∧ dn3 < 4 then 4 else dn3

/-- The claim-level delay formula: min(16, numBad) - (now - lastBadTime)
clamped to at least 0 and raised to at least 4 for an authenticated
user without an inbox. -/
def specDelay (numBad lastBadTime now : Nat) (userNoInbox : Bool) : Int :=
  let base := min 16 (numBad : Int) - ((now : Int) - (lastBadTime : Int))
  let clamped := max 0 base
  if userNoInbox then max 4 clamped else clamped

/-- Shorthand for Command::setState. -/
def setSt (c : Cmd) (s : CmdState) : Cmd := { c with state := s }

/-- Embedding of the per-command promotion steps of IMAP::runCommands:
parse when Unparsed (modelled as reading the pre-determined ok flag),
move to Finished when not ok, and otherwise promote Unparsed or Blocked
commands to Executing. -/
def promoteOne (c : Cmd) : Cmd :=
  if ¬ c.ok then setSt c .finished
  else if c.state = .unparsed ∨ c.state = .blocked then setSt c .executing
  else c

/-- Embedding of the follower loop of IMAP::runCommands: it runs while
the follower state equals the leader state, promotes each follower, and
blocks the first promoted follower whose group differs from the leader
(clearing the leader pointer, which ends the loop). -/
def followerLoop (fst : Cmd) : List Cmd → List Cmd
  | [] => []
  | c :: t =>
    if fst.state ≠ c.state then c :: t
    else
      let c2 := promoteOne c
      if c2.group ≠ fst.group ∧ c2.state = .executing then
        setSt c2 .blocked :: t
      else
        c2 :: followerLoop fst t

/-- Embedding of the start-new-commands section of IMAP::runCommands:
promote the leading command unless Retired, and when it ends Executing
with a non-zero group, run the follower loop over the rest. -/
def promoteCommands : List Cmd → List Cmd
  | [] => []
  | first :: rest =>
    if first.state = .retired then first :: rest
    else
      let f2 := promoteOne first
      if f2.state = .executing ∧ f2.group ≠ 0 then
        f2 :: followerLoop f2 rest
      else f2 :: rest

/-- Embedding of the tail of one IMAP::runCommands pass, after
executing and emission: when the computed delay is positive and the
queue is non-empty, a wake-up timer is armed for that many seconds and
the pass returns without promoting anything; otherwise promotion
runs. -/
def schedulerTail (numBad lastBadTime now : Nat) (userNoInbox : Bool)
    (cs : List Cmd) : Option Int × List Cmd :=
  let dn := delayNeeded numBad lastBadTime now userNoInbox
  if 0 < dn ∧ cs ≠ [] then (some dn, cs)
  else (none, promoteCommands cs)

/-! ## Line and literal framing (src/unnamed/part_001 IMAP::parse,
endsWithLiteral; src/smtp/deliveryagent.cpp SMTP::parseCommand) -/

/-- The left brace character, written by code point. -/
def lbrace : Char := Char.ofNat 123

/-- The right brace character, written by code point. -/
def rbrace : Char := Char.ofNat 125

/-- Modulus of 32-bit unsigned arithmetic, used where the C++ code
computes uint indices that may wrap. -/
def U32 : Nat := 4294967296

/-- The digit-skipping while loop of endsWithLiteral: decrement `i`
while it is positive and addresses a digit. -/
def ewlLoop (s : List Char) : Nat → Nat
  | 0 => 0
  | i + 1 => if isDigitCh (eGet s (i + 1)) then ewlLoop s i else i + 1

/-- Embedding of the static helper endsWithLiteral of imap.cpp: when
the line ends with an IMAP literal specification, returns the number of
bytes and whether a trailing plus was present (LITERAL+).  The uint
index arithmetic of the source, which wraps for very short strings, is
reproduced with explicit mod 2^32. -/
def endsWithLiteral (s : List Char) : Option (Nat × Bool) :=
  if s.getLast? = some rbrace then
    let i0 := (s.length + (U32 - 2)) % U32
    let pi := if eGet s i0 = '+' then ((i0 + (U32 - 1)) % U32, true)
              else (i0, false)
    let j := pi.1
    let i2 := ewlLoop s j
    if eGet s i2 = lbrace then
      match eNumber (eMid s (i2 + 1) (j - i2)) with
      | some n => some (n, pi.2)
      | none => none
    else none
  else none

/-- Index of the first LF among the first `k` characters. -/
def findNlWithin : List Char → Nat → Option Nat
  | [], _ => none
  | _ :: _, 0 => none
  | c :: t, k + 1 =>
    if c = '\n' then some 0 else Option.map (· + 1) (findNlWithin t k)

/-- Modelled from the spec: Buffer::removeLine (not among the sources)
removes and returns one CRLF-terminated line, searching for the line
break within the first `lim` bytes (the whole buffer when `lim` is 0),
and strips the trailing CR and LF. -/
def removeLineMax (lim : Nat) (buf : List Char) : Option (List Char × List Char) :=
  match findNlWithin buf (if lim = 0 then buf.length else min lim buf.length) with
  | none => none
  | some i =>
    some (if (buf.take i).getLast? = some '\r'
          then (buf.take i).dropLast else buf.take i,
          buf.drop (i + 1))

/-- The continuation request IMAP::parse enqueues before a non-plus
literal. -/
def contReq : List Char := "+ reading literal\r\n".toList

/-- The parser state of an IMAP connection: the unread input, the
accumulated command text d->str, the literal-reading flag and size, the
server output enqueued so far, and the completed command texts handed
to addCommand.  The reader slot (input reserved by a command) and the
PROXY leader are not modelled; no claim concerns them. -/
structure ImapIn where
  buffer : List Char
  str : List Char
  readingLiteral : Bool
  literalSize : Nat
  out : List (List Char)
  cmds : List (List Char)
  deriving DecidableEq, Repr

/-- Embedding of one iteration of the IMAP::parse loop, with
ImapParser::literalSizeLimit passed in as `limit`.  `none` means the
iteration returned to wait for more input, leaving the state (and so
the output) unchanged. -/
def imapParseStep (limit : Nat) (st : ImapIn) : Option ImapIn :=
  if st.readingLiteral then
    if st.buffer.length < st.literalSize then none
    else some { st with
      str := st.str ++ st.buffer.take st.literalSize,
      buffer := st.buffer.drop st.literalSize,
      readingLiteral := false }
  else
    match removeLineMax 0 st.buffer with
    | none => none
    | some (line, rest) =>
      let str1 := st.str ++ line
      match endsWithLiteral line with
      | some (n, plus) =>
        let str2 := str1 ++ ['\r', '\n']
        if n ≤ limit then
          some { st with
            buffer := rest,
            str := str2,
            readingLiteral := true,
            literalSize := n,
            out := st.out ++ (if plus then [] else [contReq]) }
        else
          some { st with buffer := rest, str := [], cmds := st.cmds ++ [str2] }
      | none =>
        some { st with buffer := rest, str := [], cmds := st.cmds ++ [str1] }

/-- The reply SMTP::parseCommand enqueues before closing on an
overlong line. -/
def lineTooLongMsg : List Char :=
  "500 Line too long (legal maximum is 998 bytes)\r\n".toList

/-- Embedding of SMTP::parseCommand: the result is the enqueued output,
whether the connection moves to Closing, and the command line removed
from the buffer, if any. -/
def smtpParseCommand (buf : List Char) : List (List Char) × Bool × Option (List Char) :=
  match removeLineMax 4096 buf with
  | none =>
    if 4096 < buf.length then ([lineTooLongMsg], true, none)
    else ([], false, none)
  | some (line, _) => ([], false, some line)

/-! ## Outbound SMTP client (src/unnamed/part_003, SmtpClient) -/

/-- The states of SmtpClientData. -/
inductive SmtpClientState where
  | invalid
  | connected
  | banner
  | hello
  | mailFrom
  | rcptTo
  | data
  | body
  | error
  | rset
  | quit
  deriving DecidableEq, Repr

/-- Recipient actions (recipient.h, used by SmtpClient and the
delivery pipeline). -/
inductive RecipientAction where
  | unknown
  | failed
  | delayed
  | relayed
  | delivered
  | expanded
  deriving DecidableEq, Repr

/-- Embedding of the enhanced-status parsing attempt at the top of the
static enhancedStatus of smtpclient.cpp, with the index arithmetic of
the source kept as written: the guard compares characters of the whole
line, while the space is searched in l.mid(4) and its relative index is
compared with 5 and offset by 4. -/
def enhancedStatusParsed (l : List Char) (e : Bool) : Option (List Char) :=
  if e ∧ ('2' ≤ eGet l 4 ∨ eGet l 4 ≤ '5') ∧ eGet l 5 = '.' then
    if 5 < eFind (eMid l 4 4294967295) ' ' then
      some (eMid l 4 ((eFind (eMid l 4 4294967295) ' ') - 4).toNat)
    else none
  else none

/-- The reply-code table of enhancedStatus.  The default branch prints
response/100, which the 200..599 guard keeps to a single digit. -/
def statusFromCode (response : Nat) (s : SmtpClientState) : List Char :=
  if response = 211 then "2.0.0".toList
  else if response = 214 then "2.0.0".toList
  else if response = 220 then "2.0.0".toList
  else if response = 221 then "2.0.0".toList
  else if response = 250 then
    (if s = .mailFrom ∨ s = .rcptTo then "2.1.0".toList else "2.0.0".toList)
  else if response = 251 then "2.1.0".toList
  else if response = 252 then "2.0.0".toList
  else if response = 354 then "2.0.0".toList
  else if response = 421 then "4.3.0".toList
  else if response = 450 then "4.2.0".toList
  else if response = 451 then "4.2.0".toList
  else if response = 452 then "4.2.0".toList
  else if response = 500 then "4.3.0".toList
  else if response = 501 then "4.3.0".toList
  else if response = 502 then "4.3.0".toList
  else if response = 503 then "4.3.0".toList
  else if response = 504 then "4.3.0".toList
  else if response = 550 then "5.2.0".toList
  else if response = 551 then "5.2.0".toList
  else if response = 552 then "5.3.0".toList
  else if response = 553 then "5.2.0".toList
  else if response = 554 then "5.0.0".toList
  else [Char.ofNat (48 + response / 100), '.', '0', '.', '0']

/-- Embedding of the static enhancedStatus of smtpclient.cpp: the
parse attempt, then the reply-code table with its 200..599 guard. -/
def enhancedStatus (l : List Char) (e : Bool) (s : SmtpClientState) : List Char :=
  match enhancedStatusParsed l e with
  | some r => r
  | none =>
    match eNumber (eMid l 0 3) with
    | none => "4.0.0".toList
    | some response =>
      if response < 200 ∨ 600 ≤ response then "4.0.0".toList
      else statusFromCode response s

/-- Embedding of the RcptTo branch of SmtpClient::handleFailure: the
action and status stored on the current recipient for a failure reply
received in the RcptTo state. -/
def handleFailureRcpt (line : List Char) (e : Bool) : RecipientAction × List Char :=
  ((if eGet line 0 = '5' then RecipientAction.failed else RecipientAction.delayed),
   enhancedStatus line e .rcptTo)

/-- Embedding of SmtpClient::dotted, processing the body left to right
with the start-of-line flag: a CR (optionally followed by LF) and a
lone LF each emit CRLF; a line-initial dot is doubled; a final CRLF is
added when the body does not end at a line boundary; and the dot-CRLF
terminator is appended. -/
def dottedAux : List Char → Bool → List Char
  | [], sol => (if sol then [] else ['\r', '\n']) ++ ['.', '\r', '\n']
  | '\r' :: '\n' :: t, _ => '\r' :: '\n' :: dottedAux t true
  | '\r' :: t, _ => '\r' :: '\n' :: dottedAux t true
  | '\n' :: t, _ => '\r' :: '\n' :: dottedAux t true
  | c :: t, sol => (if sol ∧ c = '.' then ['.'] else []) ++ c :: dottedAux t false

/-- Embedding of SmtpClient::dotted: the loop starts at the beginning
of a line. -/
def dotted (s : List Char) : List Char := dottedAux s true

/-- Modelled from the spec: the receiving side's dot-unstuffing (the
SmtpData command is not among the sources).  DATA is terminated by the
line consisting of a single dot; one leading dot is removed from every
other line that starts with a dot; the terminator must end the input. -/
def unstuffAux : List Char → Bool → Option (List Char)
  | [], _ => none
  | '.' :: '\r' :: '\n' :: rest, true => if rest = [] then some [] else none
  | '.' :: t, true => unstuffAux t false
  | '\r' :: '\n' :: rest, _ => (unstuffAux rest true).map (fun u => '\r' :: '\n' :: u)
  | c :: t, _ => (unstuffAux t false).map (fun u => c :: u)

/-- Dot-unstuffing of a complete wire body, starting at a line
boundary. -/
def unstuff (w : List Char) : Option (List Char) := unstuffAux w true

/-- Decides that a body has no bare CR and no bare LF: every CR is
immediately followed by LF and every LF immediately preceded by CR. -/
def noBare : List Char → Bool
  | [] => true
  | '\r' :: '\n' :: t => noBare t
  | '\r' :: _ => false
  | '\n' :: _ => false
  | _ :: t => noBare t

/-- Decides that a body ends with CRLF, i.e. at a line boundary. -/
def endsCrlf : List Char → Bool
  | [] => false
  | c :: t =>
    match t with
    | [] => false
    | [d] => decide (c = '\r') && decide (d = '\n')
    | _ :: _ :: _ => endsCrlf t

/-! ## SpoolManager queue runs (src/smtp/spoolmanager.cpp) -/

/-- One row of the SpoolManager queue query: a spooled message id and
the seconds until its next delivery attempt. -/
structure QueueRow where
  message : Nat
  delay : Int
  deriving DecidableEq, Repr

/-- Embedding of the delay expression of the queue query for a delivery
with a single recipient:
extract(epoch from coalesce(last_attempt + 900 s, deliver_after,
current_timestamp)) - extract(epoch from current_timestamp).
The spool interval SPOOLINTERVAL is 900 seconds. -/
def rowDelay (lastAttempt deliverAfter : Option Int) (now : Int) : Int :=
  (match lastAttempt with
   | some t => t + 900
   | none =>
     match deliverAfter with
     | some d2 => d2
     | none => now) - now

/-- Embedding of the row loop of SpoolManager::execute: a row whose
delay is at most zero spawns a DeliveryAgent whose start timer is the
current agent count times 5 seconds; a positive delay lowers the
pending wake-up delay when smaller.  Arguments: remaining rows, current
agent count, wake-up delay so far; result: the (message, stagger)
pairs spawned and the final wake-up delay. -/
def runQueueAux : List QueueRow → Nat → Nat → List (Nat × Nat) × Nat
  | [], _, delay => ([], delay)
  | r :: t, count, delay =>
    if r.delay ≤ 0 then
      ((r.message, count * 5) :: (runQueueAux t (count + 1) delay).1,
       (runQueueAux t (count + 1) delay).2)
    else if (delay : Int) > r.delay then runQueueAux t count r.delay.toNat
    else runQueueAux t count delay

/-- Observables of the row-processing entry of SpoolManager::execute:
the (message, stagger) pairs of the DeliveryAgents constructed, the
wake-up timer created right after the row loop (the code logs
`Will process the queue again in N seconds`), and d->t after the
trailing reset() of the same entry — which deletes that timer, even
though reset()'s own comment says it resets all but the Timer, and
re-arms a 1-second timer exactly when d->again was set by a
deliveries_updated notification during the run. -/
structure QueueRunResult where
  spawned : List (Nat × Nat)
  armed : Option Nat
  timer : Option Nat
  deriving DecidableEq, Repr

/-- Embedding of the entry of SpoolManager::execute that runs when the
queue query has completed: the local `delay` starts at UINT_MAX on this
entry (the SPOOLINTERVAL initialization for working agents happens on
the query-issuing entry, in a local that dies when execute() returns to
wait for the query, so it never reaches the row loop); `agents0` is
the number of agents in d->agents at this entry, i.e. the still-working
agents kept by the harvest of the earlier entry; after the row loop the
timer is armed at the minimum positive delay and d->q cleared, and then
the trailing reset() runs. -/
def execRowsPass (rows : List QueueRow) (agents0 : Nat) (again : Bool) :
    QueueRunResult :=
  { spawned := (runQueueAux rows agents0 4294967295).1,
    armed := if (runQueueAux rows agents0 4294967295).2 < 4294967295
             then some (runQueueAux rows agents0 4294967295).2 else none,
    timer := if again then some 1 else none }

/-- The claim-level enumeration of spawned agents: every row with delay
at most zero, staggered by 5 seconds times its position among the
spawned agents. -/
def spawnEnum : List QueueRow → Nat → List (Nat × Nat)
  | [], _ => []
  | r :: t, i => (r.message, i * 5) :: spawnEnum t (i + 1)

/-- The claim-level minimum positive delay over the returned rows. -/
def minPosDelay : List QueueRow → Option Nat
  | [] => none
  | r :: t =>
    if 0 < r.delay then
      match minPosDelay t with
      | none => some r.delay.toNat
      | some m => some (min r.delay.toNat m)
    else minPosDelay t

/-! ## SpoolManager kill switch (src/smtp/spoolmanager.cpp,
src/smtp/deliveryagent.cpp) -/

/-- The phase of the manager's queue query d->q: no query outstanding,
or a query whose completion will deliver the given rows. -/
inductive QueryPhase where
  | idle
  | pending (rows : List QueueRow)
  deriving DecidableEq, Repr

/-- The spool state: the ::sm and ::shutdown statics of
spoolmanager.cpp, and the manager object's d->t, d->q and d->again,
its count of still-working agents, and the total number of
DeliveryAgents constructed in the process. -/
structure SpoolState where
  smPresent : Bool
  shutdownFlag : Bool
  t : Option Nat
  q : QueryPhase
  again : Bool
  working : Nat
  agentsCreated : Nat
  deriving DecidableEq, Repr

/-- Embedding of SpoolManager::shutdown: the current singleton's timer,
if any, is deleted, the singleton pointer is cleared and the shutdown
flag set; the manager object itself — in particular an outstanding
query and the again flag — is untouched. -/
def spoolShutdown (s : SpoolState) : SpoolState :=
  { s with
    t := if s.smPresent then none else s.t,
    smPresent := false,
    shutdownFlag := true }

/-- Events delivered to the spool subsystem after SpoolManager::setup
(which is called once, from main, before any of them).  startRun is a
timer firing (d->t or the 1-second again-timer): the Timer invokes
execute() on the manager object directly, with no ::sm check; the
event carries the rows the freshly issued query will return and the
post-harvest count of still-working agents.  queryDone is the
completion of the outstanding queue query; modelled from the spec:
the database re-invokes the owner registered with the query — again
with no ::sm or ::shutdown check anywhere in execute().  signal is a
deliveries_updated notification: SpoolRunner does check ::sm before
calling deliverNewMessage.  agentCommitFail is a DeliveryAgent whose
transaction failed to commit, which calls SpoolManager::shutdown
(deliveryagent.cpp); agentCommitOk is an agent finishing normally. -/
inductive SpoolEvent where
  | startRun (rows : List QueueRow) (w : Nat)
  | queryDone
  | signal
  | agentCommitFail
  | agentCommitOk
  deriving DecidableEq, Repr

/-- One step of the spool subsystem.  startRun with a query already
outstanding returns at the not-done check; with no timer armed there is
nothing to fire.  A completing query with rows runs the row pass of
execute(); with no rows, execute() just calls reset().  signal sets
d->again, and additionally reset() (arming the 1-second timer) when no
query is outstanding, per deliverNewMessage. -/
def spoolStep (s : SpoolState) : SpoolEvent → SpoolState
  | .startRun rows w =>
    if s.t = none then s
    else
      match s.q with
      | .pending _ => s
      | .idle =>
        { s with working := w, again := false, t := none, q := .pending rows }
  | .queryDone =>
    match s.q with
    | .idle => s
    | .pending rows =>
      { s with
        q := .idle,
        t := (execRowsPass rows s.working s.again).timer,
        working := s.working + (execRowsPass rows s.working s.again).spawned.length,
        agentsCreated :=
          s.agentsCreated + (execRowsPass rows s.working s.again).spawned.length }
  | .signal =>
    if s.smPresent then
      match s.q with
      | .pending _ => { s with again := true }
      | .idle => { s with again := true, t := some 1 }
    else s
  | .agentCommitFail => spoolShutdown s
  | .agentCommitOk => s

/-- Runs a sequence of spool events. -/
def spoolRun (s : SpoolState) : List SpoolEvent → SpoolState
  | [] => s
  | e :: t => spoolRun (spoolStep s e) t

/-! ## Theorems -/

theorem applyCaps_preserves (c : ClientCapability) :
    ∀ (ops : List ClientCapability) (caps : ClientCapability → Bool),
      clientSupports caps c = true →
      clientSupports (applyCaps caps ops) c = true := by
  intro ops
  induction ops with
  | nil => intro caps h; exact h
  | cons o t ih =>
    intro caps h
    apply ih
    unfold clientSupports setClientSupports
    unfold clientSupports at h
    split
    · rfl
    · split
      · rfl
      · exact h

/-- C9: capability flags are monotone: after any setClientSupports(c),
clientSupports(c) is true and remains true under any further
setClientSupports calls (the only operation writing the table), and on
any table reachable from the initial one, clientSupports(QResync)
implies clientSupports(Condstore). -/
theorem client_capabilities_monotone :
    (∀ (caps : ClientCapability → Bool) (c : ClientCapability)
       (ops : List ClientCapability),
       clientSupports (applyCaps (setClientSupports caps c) ops) c = true)
    ∧ (∀ ops : List ClientCapability,
       clientSupports (applyCaps initialCaps ops) .qresync = true →
       clientSupports (applyCaps initialCaps ops) .condstore = true) := by
  constructor
  · intro caps c ops
    apply applyCaps_preserves
    unfold clientSupports setClientSupports
    simp
  · -- invariant: qresync set implies condstore set, preserved by every write
    have key : ∀ (ops : List ClientCapability) (caps : ClientCapability → Bool),
        (caps .qresync = true → caps .condstore = true) →
        (applyCaps caps ops .qresync = true → applyCaps caps ops .condstore = true) := by
      intro ops
      induction ops with
      | nil => intro caps h; exact h
      | cons o t ih =>
        intro caps h
        apply ih
        intro hq
        unfold setClientSupports at hq ⊢
        cases o with
        | condstore => simp at hq ⊢
        | qresync => simp
    intro ops
    exact key ops initialCaps (by intro h; exact h)

/-- Witness for C9 at concrete inputs: setting QResync makes both
QResync and Condstore supported, and they stay supported after a
further setClientSupports(Condstore). -/
theorem client_capabilities_monotone_witness :
    clientSupports (applyCaps (setClientSupports initialCaps .qresync)
      [.condstore]) .qresync = true
    ∧ (clientSupports (applyCaps initialCaps [.qresync]) .qresync = true →
       clientSupports (applyCaps initialCaps [.qresync]) .condstore = true)
    ∧ clientSupports (applyCaps initialCaps [.qresync]) .qresync = true := by
  refine ⟨client_capabilities_monotone.1 initialCaps .qresync [.condstore],
          client_capabilities_monotone.2 [.qresync], by decide⟩

theorem expungePermitted_snd : ∀ (cs : List Cmd) (can : Bool),
    ((expungePermitted cs can).2 = true) ↔ ∃ c ∈ cs, cannotCmd c := by
  intro cs
  induction cs with
  | nil => intro can; simp [expungePermitted]
  | cons c t ih =>
    intro can
    simp only [expungePermitted]
    split_ifs with h1 h2 h3 h4 h5
    · rw [ih]
      simp [cannotCmd, h1.1, h1.2]
    · have hc : cannotCmd c := by
        left
        refine ⟨h2, ?_⟩
        intro hn
        exact h1 ⟨h2, hn⟩
      simp [hc]
    · have hc : cannotCmd c := Or.inr (Or.inl ⟨h2, h3⟩)
      simp [hc]
    · have hc : cannotCmd c := Or.inr (Or.inr ⟨h2, h3, h4.1, h4.2⟩)
      simp [hc]
    · rw [ih]
      have hc : ¬ cannotCmd c := by
        intro hc
        rcases hc with ⟨he, _⟩ | ⟨_, hg⟩ | ⟨_, _, hm⟩
        · exact h2 he
        · exact h3 hg
        · exact h4 hm
      simp [hc]
    · rw [ih]
      have hc : ¬ cannotCmd c := by
        intro hc
        rcases hc with ⟨he, _⟩ | ⟨_, hg⟩ | ⟨_, _, hm⟩
        · exact h2 he
        · exact h3 hg
        · exact h4 hm
      simp [hc]

theorem expungePermitted_fst : ∀ (cs : List Cmd) (can : Bool),
    (∀ c ∈ cs, ¬ cannotCmd c) →
    ((expungePermitted cs can).1 = true ↔ (can = true ∨ ∃ c ∈ cs, canCmd c)) := by
  intro cs
  induction cs with
  | nil => intro can _; simp [expungePermitted]
  | cons c t ih =>
    intro can hno
    have hnoc : ¬ cannotCmd c := hno c (List.mem_cons_self c t)
    have hnot : ∀ x ∈ t, ¬ cannotCmd x := fun x hx => hno x (List.mem_cons_of_mem c hx)
    simp only [expungePermitted]
    split_ifs with h1 h2 h3 h4 h5
    · rw [ih true hnot]
      have hcan : canCmd c := Or.inl h1
      simp [hcan]
    · exact absurd (Or.inl ⟨h2, fun hn => h1 ⟨h2, hn⟩⟩) hnoc
    · exact absurd (Or.inr (Or.inl ⟨h2, h3⟩)) hnoc
    · exact absurd (Or.inr (Or.inr ⟨h2, h3, h4.1, h4.2⟩)) hnoc
    · rw [ih true hnot]
      have hcan : canCmd c := Or.inr ⟨h2, h3, h4, h5.1, h5.2⟩
      simp [hcan]
    · rw [ih can hnot]
      have hcan : ¬ canCmd c := by
        intro hc
        rcases hc with hc | ⟨_, _, _, hf⟩
        · exact h1 hc
        · exact h5 hf
      simp [hcan]

theorem canSendExpunge_iff (cs : List Cmd) (hs : idleSane cs) :
    canSendExpunge cs = true ↔ specCanSendExpunge cs := by
  unfold canSendExpunge
  by_cases hcn : ∃ c ∈ cs, cannotCmd c
  · have h2 : (expungePermitted cs false).2 = true := (expungePermitted_snd cs false).2 hcn
    simp only [h2]
    constructor
    · intro h; simp at h
    · intro hspec
      exfalso
      rcases hcn with ⟨c, hmem, hc⟩
      rcases hc with ⟨he, hn⟩ | ⟨_, hg⟩ | ⟨_, _, hm, hn⟩
      · exact hspec.2.1 ⟨c, hmem, he, hn⟩
      · exact hspec.2.2.1 ⟨c, hmem, hg⟩
      · exact hspec.2.2.2 ⟨c, hmem, hm, hn⟩
  · have hno : ∀ c ∈ cs, ¬ cannotCmd c := by
      intro c hc hcc; exact hcn ⟨c, hc, hcc⟩
    have h2 : (expungePermitted cs false).2 = false := by
      rcases h : (expungePermitted cs false).2 with _ | _
      · rfl
      · exact absurd ((expungePermitted_snd cs false).1 h) hcn
    have h1 := expungePermitted_fst cs false hno
    simp only [h2, Bool.not_false, Bool.and_true, h1]
    constructor
    · intro h
      rcases h with h | ⟨c, hmem, hcan⟩
      · simp at h
      constructor
      · rcases hcan with ⟨he, hn⟩ | ⟨_, _, _, hf, ht⟩
        · exact Or.inl ⟨c, hmem, he, hn⟩
        · exact Or.inr ⟨c, hmem, hf, ht⟩
      refine ⟨?_, ?_, ?_⟩
      · rintro ⟨x, hx, he, hn⟩
        exact hno x hx (Or.inl ⟨he, hn⟩)
      · rintro ⟨x, hx, hg⟩
        by_cases he : x.state = .executing
        · have hni : x.name ≠ "idle".toList := by
            intro hn
            rcases hs x hx hn with ⟨hg2, hg3, _⟩
            rcases hg with hg | hg
            · exact hg2 hg
            · exact hg3 hg
          exact hno x hx (Or.inl ⟨he, hni⟩)
        · exact hno x hx (Or.inr (Or.inl ⟨he, hg⟩))
      · rintro ⟨x, hx, hm, hc⟩
        by_cases he : x.state = .executing
        · have hni : x.name ≠ "idle".toList := by
            intro hn
            exact absurd hm (by simp [(hs x hx hn).2.2])
          exact hno x hx (Or.inl ⟨he, hni⟩)
        · by_cases hg : x.group = 2 ∨ x.group = 3
          · exact hno x hx (Or.inr (Or.inl ⟨he, hg⟩))
          · exact hno x hx (Or.inr (Or.inr ⟨he, hg, hm, hc⟩))
    · rintro ⟨hpos, hneg1, hneg2, hneg3⟩
      right
      rcases hpos with ⟨c, hmem, he, hn⟩ | ⟨c, hmem, hf, ht⟩
      · exact ⟨c, hmem, Or.inl ⟨he, hn⟩⟩
      · have hne : c.state ≠ .executing := by
          rw [hf]; intro hc; cases hc
        have hng : ¬ (c.group = 2 ∨ c.group = 3) := by
          intro hg; exact hneg2 ⟨c, hmem, hg⟩
        have hnm : ¬ (c.usesMsn = true ∧ c.name ≠ "copy".toList) := by
          intro hm; exact hneg3 ⟨c, hmem, hm⟩
        exact ⟨c, hmem, Or.inr ⟨hne, hng, hnm, hf, ht⟩⟩

theorem emitLoop_keeps (rs : List ImapResponse) (r : ImapResponse)
    (hmem : r ∈ rs) (hm : r.meaningful = true) (hsent : r.sent = false)
    (hmsn : r.changesMsn = true) :
    r ∈ (emitLoop false rs).2 := by
  induction rs with
  | nil => cases hmem
  | cons x t ih =>
    rcases List.mem_cons.1 hmem with hx | hx
    · subst hx
      simp [emitLoop, hm, hsent, hmsn]
    · by_cases h1 : x.meaningful = true
      · by_cases h2 : x.sent = false ∧ ((false : Bool) ∨ x.changesMsn = false)
        · simp only [emitLoop, h1, h2]
          simp [ih hx]
        · simp only [emitLoop, h1, h2]
          by_cases hs2 : x.sent = true
          · simp [hs2, ih hx]
          · simp [hs2, ih hx]
      · simp only [emitLoop, h1]
        simp [h1, ih hx]

theorem emitLoop_output_nonmsn (rs : List ImapResponse) :
    (emitLoop false rs).1 =
      (emitLoop false (rs.filter (fun r => !r.changesMsn))).1 := by
  induction rs with
  | nil => rfl
  | cons x t ih =>
    by_cases hm : x.meaningful = true
    · by_cases hmsn : x.changesMsn = true
      · by_cases hs2 : x.sent = true
        · simp [emitLoop, List.filter_cons, hm, hmsn, hs2, ih]
        · simp [emitLoop, List.filter_cons, hm, hmsn, hs2, ih]
      · by_cases hs2 : x.sent = true
        · simp [emitLoop, List.filter_cons, hm, hmsn, hs2, ih]
        · simp [emitLoop, List.filter_cons, hm, hmsn, hs2, ih]
    · by_cases hmsn : x.changesMsn = true
      · simp [emitLoop, List.filter_cons, hm, hmsn, ih]
      · simp [emitLoop, List.filter_cons, hm, hmsn, ih]

/-- C1: an untagged response with changesMsn (EXPUNGE/VANISHED) is
emitted only when the can-send-expunge predicate holds, and that
predicate matches the spec description: true when an IDLE is executing
or a finished tagged command awaits its tagged response, false when any
other command is executing, any command has group 2 or 3, or any
command uses MSNs and is not copy.  The hypothesis records that IDLE
commands have neither group 2/3 nor MSN arguments, which holds of the
program. -/
theorem expunge_gating (bug : Bool) (cs : List Cmd) (rs : List ImapResponse)
    (hs : idleSane (commandsView cs)) :
    (canSendExpunge (commandsView cs) = true ↔
       specCanSendExpunge (commandsView cs))
    ∧ (canSendExpunge (commandsView cs) = false →
       (∀ r ∈ rs, r.meaningful = true → r.sent = false → r.changesMsn = true →
          r ∈ (emitResponses bug cs rs).2)
       ∧ (emitResponses bug cs rs).1 =
           (emitResponses bug cs (rs.filter (fun r => !r.changesMsn))).1) := by
  refine ⟨canSendExpunge_iff _ hs, ?_⟩
  intro hfalse
  unfold emitResponses
  split_ifs with hbug
  · exact ⟨fun r hr _ _ _ => hr, rfl⟩
  · rw [hfalse]
    exact ⟨fun r hr hm hsent hmsn => emitLoop_keeps rs r hr hm hsent hmsn,
           emitLoop_output_nonmsn rs⟩

/-- Witness for C1 at a concrete state: a group-1 UID FETCH command is
Executing, so the predicate is false and a pending EXPUNGE response
stays queued. -/
theorem expunge_gating_witness :
    idleSane (commandsView [⟨"A1".toList, "fetch".toList, 1, .executing, true, true⟩])
    ∧ canSendExpunge
        (commandsView [⟨"A1".toList, "fetch".toList, 1, .executing, true, true⟩]) = false
    ∧ ⟨true, true, false, "5 EXPUNGE".toList⟩ ∈
        (emitResponses false
          [⟨"A1".toList, "fetch".toList, 1, .executing, true, true⟩]
          [⟨true, true, false, "5 EXPUNGE".toList⟩]).2 := by
  refine ⟨?_, by decide, ?_⟩
  · intro c hc hn
    simp [commandsView] at hc
    subst hc
    simp at hn
  · exact ((expunge_gating false
      [⟨"A1".toList, "fetch".toList, 1, .executing, true, true⟩]
      [⟨true, true, false, "5 EXPUNGE".toList⟩]
      (by intro c hc hn
          simp [commandsView] at hc
          subst hc
          simp at hn)).2 (by decide)).1
      ⟨true, true, false, "5 EXPUNGE".toList⟩ (by simp) rfl rfl rfl

theorem findNlWithin_append_crlf : ∀ (line : List Char), '\n' ∉ line →
    ∀ (tail : List Char) (k : Nat), line.length + 2 ≤ k →
    findNlWithin (line ++ '\r' :: '\n' :: tail) k = some (line.length + 1) := by
  intro line
  induction line with
  | nil =>
    intro _ tail k hk
    obtain ⟨k2, rfl⟩ : ∃ k2, k = k2 + 2 := ⟨k - 2, by omega⟩
    simp [findNlWithin]
  | cons c l ih =>
    intro h tail k hk
    have hc : c ≠ '\n' := by
      intro hc; exact h (by simp [hc])
    have hl : '\n' ∉ l := fun hm => h (List.mem_cons_of_mem c hm)
    obtain ⟨k1, rfl⟩ : ∃ k1, k = k1 + 1 := ⟨k - 1, by omega⟩
    simp only [List.cons_append, findNlWithin, if_neg hc, List.append_eq]
    rw [ih hl tail k1 (by simp only [List.length_cons] at hk; omega)]
    simp

theorem findNlWithin_none_of_not_mem : ∀ (buf : List Char) (k : Nat),
    '\n' ∉ buf.take k → findNlWithin buf k = none := by
  intro buf
  induction buf with
  | nil => intro k _; cases k <;> rfl
  | cons c t ih =>
    intro k hk
    cases k with
    | zero => rfl
    | succ k1 =>
      have hc : c ≠ '\n' := by
        intro hc; exact hk (by simp [hc])
      have ht : '\n' ∉ t.take k1 := by
        intro hm; exact hk (by simp [List.take_succ_cons]; exact Or.inr hm)
      simp [findNlWithin, if_neg hc, ih k1 ht]

theorem removeLine_crlf (line tail : List Char) (h : '\n' ∉ line) :
    removeLineMax 0 (line ++ '\r' :: '\n' :: tail) = some (line, tail) := by
  have hfind := findNlWithin_append_crlf line h tail
    (line ++ '\r' :: '\n' :: tail).length
    (by simp only [List.length_append, List.length_cons]; omega)
  have hpre : (line ++ '\r' :: '\n' :: tail).take (line.length + 1) =
      line ++ ['\r'] := by
    rw [List.take_append_eq_append_take]
    simp
  have hdrop : (line ++ '\r' :: '\n' :: tail).drop (line.length + 1 + 1) = tail := by
    rw [List.drop_append_eq_append_drop, List.drop_eq_nil_of_le (by omega),
      show line.length + 1 + 1 - line.length = 2 by omega]
    rfl
  simp only [removeLineMax, eq_self_iff_true, if_true, hfind, hpre, hdrop]
  rw [List.getLast?_concat, List.dropLast_concat]
  simp

theorem removeLine_none (buf : List Char) (h : '\n' ∉ buf) :
    removeLineMax 0 buf = none := by
  simp only [removeLineMax, if_pos rfl,
    findNlWithin_none_of_not_mem buf _ (fun hm => h (List.take_subset _ _ hm))]

/-- C3: a received command line ending with a literal specification of
size within the configured limit flips the parser into literal-reading
mode; the continuation request `+ reading literal` is enqueued exactly
when the specification lacks the plus, and before any literal octet is
consumed; the following iteration consumes exactly the announced number
of octets and emits nothing; afterwards the parser is back in
line-reading mode with the collected text in d->str, so further
literals on the remainder of the command recurse through the same
steps. -/
theorem literal_framing (limit n : Nat) (plus : Bool) (st : ImapIn)
    (line tail : List Char)
    (hrl : st.readingLiteral = false)
    (hbuf : st.buffer = line ++ '\r' :: '\n' :: tail)
    (hnl : '\n' ∉ line)
    (hlit : endsWithLiteral line = some (n, plus))
    (hlim : n ≤ limit)
    (hlen : n ≤ tail.length) :
    imapParseStep limit st = some { st with
        buffer := tail,
        str := st.str ++ line ++ ['\r', '\n'],
        readingLiteral := true,
        literalSize := n,
        out := st.out ++ (if plus then [] else [contReq]) }
    ∧ imapParseStep limit { st with
        buffer := tail,
        str := st.str ++ line ++ ['\r', '\n'],
        readingLiteral := true,
        literalSize := n,
        out := st.out ++ (if plus then [] else [contReq]) } =
      some { st with
        buffer := tail.drop n,
        str := (st.str ++ line ++ ['\r', '\n']) ++ tail.take n,
        readingLiteral := false,
        literalSize := n,
        out := st.out ++ (if plus then [] else [contReq]) } := by
  constructor
  · have h1 := removeLine_crlf line tail hnl
    simp [imapParseStep, hrl, hbuf, h1, hlit, hlim, List.append_assoc]
  · have hnl2 : ¬ (tail.length < n) := Nat.not_lt.mpr hlen
    simp [imapParseStep, hnl2, List.append_assoc]

/-- Witness for C3 at concrete inputs: a line ending in a plain literal
specification enqueues the continuation request and then consumes its
three octets; one ending in a LITERAL+ specification enqueues
nothing. -/
theorem literal_framing_witness :
    ('\n' ∉ "a login \x7b3\x7d".toList)
    ∧ endsWithLiteral "a login \x7b3\x7d".toList = some (3, false)
    ∧ imapParseStep 4096 ⟨"a login \x7b3\x7d\r\nxyzrest".toList, [], false, 0, [], []⟩ =
        some ⟨"xyzrest".toList, "a login \x7b3\x7d\r\n".toList, true, 3, [contReq], []⟩
    ∧ endsWithLiteral "b login \x7b3+\x7d".toList = some (3, true)
    ∧ imapParseStep 4096 ⟨"b login \x7b3+\x7d\r\nxyzrest".toList, [], false, 0, [], []⟩ =
        some ⟨"xyzrest".toList, "b login \x7b3+\x7d\r\n".toList, true, 3, [], []⟩ := by
  refine ⟨by decide, by decide, ?_, by decide, ?_⟩
  · have h := (literal_framing 4096 3 false
      ⟨"a login \x7b3\x7d\r\nxyzrest".toList, [], false, 0, [], []⟩
      "a login \x7b3\x7d".toList "xyzrest".toList
      rfl (by decide) (by decide) (by decide) (by decide) (by decide)).1
    rw [h]
    decide
  · have h := (literal_framing 4096 3 true
      ⟨"b login \x7b3+\x7d\r\nxyzrest".toList, [], false, 0, [], []⟩
      "b login \x7b3+\x7d".toList "xyzrest".toList
      rfl (by decide) (by decide) (by decide) (by decide) (by decide)).1
    rw [h]
    decide

theorem nl_not_mem_replicate (n : Nat) (c : Char) (hc : c ≠ '\n') :
    '\n' ∉ List.replicate n c := by
  intro hm
  exact hc (List.eq_of_mem_replicate hm).symm

theorem imapParseStep_no_newline (limit : Nat) (st : ImapIn)
    (hrl : st.readingLiteral = false) (hmem : '\n' ∉ st.buffer) :
    imapParseStep limit st = none := by
  simp [imapParseStep, hrl, removeLine_none st.buffer hmem]

/-- Counterexample to C4 as stated: the IMAP parser has no 4096-octet
line limit.  On a buffer of 4097 octets with no line break the IMAP
parse step returns to wait for more input with the state unchanged, so
nothing (in particular no `500 Line too long`) is emitted and the
connection is not closed; the 500 reply belongs to the SMTP server. -/
theorem line_limit_imap_cex :
    4096 < (List.replicate 4097 'a').length
    ∧ imapParseStep 4096 ⟨List.replicate 4097 'a', [], false, 0, [], []⟩ = none := by
  constructor
  · rw [List.length_replicate]
    omega
  · exact imapParseStep_no_newline 4096 _ rfl
      (nl_not_mem_replicate 4097 'a' (by decide))

/-- C4 as amended: the 4096-octet line limit belongs to the SMTP/LMTP
server: when more than 4096 octets arrive with no LF among the first
4096, SMTP::parseCommand enqueues `500 Line too long (legal maximum is
998 bytes)` and moves the connection to Closing; the IMAP parser, by
contrast, simply keeps waiting when the buffer holds no line break. -/
theorem line_limit_smtp (buf : List Char)
    (hlen : 4096 < buf.length)
    (hnl : '\n' ∉ buf.take 4096) :
    smtpParseCommand buf = ([lineTooLongMsg], true, none)
    ∧ (∀ (limit : Nat) (st : ImapIn), st.readingLiteral = false →
        st.buffer = buf → '\n' ∉ buf → imapParseStep limit st = none) := by
  constructor
  · have hk : min 4096 buf.length = 4096 := by omega
    have h4 : ¬ (4096 : Nat) = 0 := by decide
    simp only [smtpParseCommand, removeLineMax, if_neg h4, hk,
      findNlWithin_none_of_not_mem buf 4096 hnl]
    simp [hlen]
  · intro limit st hrl hbuf hmem
    exact imapParseStep_no_newline limit st hrl (by rw [hbuf]; exact hmem)

/-- Witness for the amended C4 at a concrete input: 4097 octets of `b`
draw the 500 reply and close the SMTP connection. -/
theorem line_limit_smtp_witness :
    4096 < (List.replicate 4097 'b').length
    ∧ ('\n' ∉ (List.replicate 4097 'b').take 4096)
    ∧ smtpParseCommand (List.replicate 4097 'b') = ([lineTooLongMsg], true, none) := by
  have hlen : 4096 < (List.replicate 4097 'b').length := by
    rw [List.length_replicate]; omega
  have hnl : '\n' ∉ (List.replicate 4097 'b').take 4096 := by
    rw [List.take_replicate]
    exact nl_not_mem_replicate _ 'b' (by decide)
  exact ⟨hlen, hnl, (line_limit_smtp (List.replicate 4097 'b') hlen hnl).1⟩

/-- C2: the scheduler delay equals min(16, numBad) - (now - lastBadTime)
clamped to at least 0, raised to at least 4 for an authenticated user
without an inbox; when it is positive and the queue is non-empty, a
wake-up timer is armed for that many seconds and no command is parsed
or promoted; and after 3 NO/BAD responses just sent, the next command
is held 3 seconds. -/
theorem rate_limiting (numBad lastBadTime now : Nat) (uni : Bool)
    (cs : List Cmd)
    (hpos : 0 < delayNeeded numBad lastBadTime now uni) (hne : cs ≠ []) :
    delayNeeded numBad lastBadTime now uni = specDelay numBad lastBadTime now uni
    ∧ schedulerTail numBad lastBadTime now uni cs =
        (some (delayNeeded numBad lastBadTime now uni), cs)
    ∧ (∀ t : Nat, delayNeeded 3 t t false = 3) := by
  refine ⟨?_, ?_, ?_⟩
  · unfold delayNeeded specDelay
    rcases uni with _ | _ <;> simp [min_def, max_def] <;> split_ifs <;> omega
  · unfold schedulerTail
    simp [hpos, hne]
  · intro t
    unfold delayNeeded
    simp

/-- Witness for C2 at concrete inputs: 3 syntax errors recorded at the
current instant delay the single queued command by 3 seconds. -/
theorem rate_limiting_witness :
    0 < delayNeeded 3 1000 1000 false
    ∧ ([⟨"A1".toList, "noop".toList, 0, .unparsed, false, true⟩] : List Cmd) ≠ []
    ∧ schedulerTail 3 1000 1000 false
        [⟨"A1".toList, "noop".toList, 0, .unparsed, false, true⟩] =
        (some (delayNeeded 3 1000 1000 false),
         [⟨"A1".toList, "noop".toList, 0, .unparsed, false, true⟩])
    ∧ delayNeeded 3 1000 1000 false = specDelay 3 1000 1000 false := by
  have h := rate_limiting 3 1000 1000 false
    [⟨"A1".toList, "noop".toList, 0, .unparsed, false, true⟩]
    (by decide) (by decide)
  exact ⟨by decide, by decide, h.2.1, h.1⟩

/-- C5: the code contradicts the spec here.  In the RcptTo state a 5xx
reply marks the recipient Failed and a 4xx reply Delayed, and a 550
without ENHANCEDSTATUSCODES yields the table status 5.2.0 — but the
RFC 3463 triple is not parsed even when the server advertised
ENHANCEDSTATUSCODES: the space is searched in l.mid(4) while its index
is used as if it were absolute, so a normal triple falls through to the
table (first conjunct) and a longer one returns a truncated string
(second conjunct). -/
theorem rcpt_status_eval :
    handleFailureRcpt "550 5.7.1 no such user".toList true =
      (RecipientAction.failed, "5.2.0".toList)
    ∧ handleFailureRcpt "550 5.7.10 no".toList true =
      (RecipientAction.failed, "5.".toList)
    ∧ handleFailureRcpt "550 user unknown".toList false =
      (RecipientAction.failed, "5.2.0".toList)
    ∧ handleFailureRcpt "450 mailbox busy".toList false =
      (RecipientAction.delayed, "4.2.0".toList) := by
  decide

theorem endsCrlf_cons_cons (c d : Char) (t : List Char) :
    endsCrlf (c :: d :: t) = true ↔
      (t = [] ∧ c = '\r' ∧ d = '\n') ∨ (t ≠ [] ∧ endsCrlf (d :: t) = true) := by
  rcases t with _ | ⟨e, t3⟩
  · simp [endsCrlf]
  · simp [endsCrlf]

theorem unstuff_dottedAux : ∀ (k : Nat) (s : List Char), s.length ≤ k →
    noBare s = true →
    ((s = [] ∨ endsCrlf s = true) →
       unstuffAux (dottedAux s true) true = some s)
    ∧ (endsCrlf s = true → unstuffAux (dottedAux s false) false = some s) := by
  intro k
  induction k with
  | zero =>
    intro s hlen hnb
    have hs : s = [] := List.length_eq_zero.1 (Nat.le_zero.1 hlen)
    subst hs
    constructor
    · intro _; decide
    · intro h; simp [endsCrlf] at h
  | succ k ih =>
    intro s hlen hnb
    rcases s with _ | ⟨c, t⟩
    · constructor
      · intro _; decide
      · intro h; simp [endsCrlf] at h
    · by_cases hcr : c = '\r'
      · subst hcr
        rcases t with _ | ⟨d, t2⟩
        · simp [noBare] at hnb
        · by_cases hdn : d = '\n'
          · subst hdn
            have hnb2 : noBare t2 = true := by simpa [noBare] using hnb
            have hlen2 : t2.length ≤ k := by
              simp only [List.length_cons] at hlen; omega
            have ih2 := ih t2 hlen2 hnb2
            have key : ∀ b : Bool,
                (t2 = [] ∨ endsCrlf t2 = true) →
                unstuffAux (dottedAux ('\r' :: '\n' :: t2) b) b =
                  some ('\r' :: '\n' :: t2) := by
              intro b hor2
              have hx := ih2.1 hor2
              rcases b with _ | _ <;>
                simp [dottedAux, unstuffAux, hx]
            have hsplit : endsCrlf ('\r' :: '\n' :: t2) = true →
                (t2 = [] ∨ endsCrlf t2 = true) := by
              intro hend
              rcases (endsCrlf_cons_cons '\r' '\n' t2).1 hend with ⟨ht2, _, _⟩ | ⟨ht2, hend2⟩
              · exact Or.inl ht2
              · right
                rcases t2 with _ | ⟨e, t3⟩
                · exact absurd rfl ht2
                · rcases (endsCrlf_cons_cons '\n' e t3).1 hend2 with ⟨_, hne, _⟩ | ⟨_, h3⟩
                  · exact absurd hne (by decide)
                  · exact h3
            constructor
            · intro hor
              rcases hor with h | h
              · simp at h
              · exact key true (hsplit h)
            · intro hend
              exact key false (hsplit hend)
          · exfalso
            simp [noBare, hdn] at hnb
      · by_cases hcn : c = '\n'
        · subst hcn
          exfalso
          simp [noBare] at hnb
        · have hnb2 : noBare t = true := by
            simpa [noBare, hcr, hcn] using hnb
          have hlen2 : t.length ≤ k := by
            simp only [List.length_cons] at hlen; omega
          have ih2 := ih t hlen2 hnb2
          have hsplit : endsCrlf (c :: t) = true →
              ∃ d t2, t = d :: t2 ∧ endsCrlf t = true := by
            intro hend
            rcases t with _ | ⟨d, t2⟩
            · simp [endsCrlf] at hend
            · rcases (endsCrlf_cons_cons c d t2).1 hend with ⟨_, hcr2, _⟩ | ⟨_, hend2⟩
              · exact absurd hcr2 hcr
              · exact ⟨d, t2, rfl, hend2⟩
          constructor
          · intro hor
            have hend : endsCrlf (c :: t) = true := by
              rcases hor with h | h
              · simp at h
              · exact h
            obtain ⟨d, t2, rfl, hend2⟩ := hsplit hend
            have h2 := ih2.2 hend2
            by_cases hdot : c = '.'
            · subst hdot
              simp [dottedAux, unstuffAux, h2]
            · simp [dottedAux, unstuffAux, hcr, hcn, hdot, h2]
          · intro hend
            obtain ⟨d, t2, rfl, hend2⟩ := hsplit hend
            have h2 := ih2.2 hend2
            simp [dottedAux, unstuffAux, hcr, hcn, h2]

theorem noBare_dottedAux : ∀ (k : Nat) (s : List Char), s.length ≤ k →
    ∀ b : Bool, noBare (dottedAux s b) = true := by
  intro k
  induction k with
  | zero =>
    intro s hlen b
    have hs : s = [] := List.length_eq_zero.1 (Nat.le_zero.1 hlen)
    subst hs
    rcases b with _ | _ <;> decide
  | succ k ih =>
    intro s hlen b
    rcases s with _ | ⟨c, t⟩
    · rcases b with _ | _ <;> decide
    · by_cases hcr : c = '\r'
      · subst hcr
        rcases t with _ | ⟨d, t2⟩
        · have := ih [] (by simp) true
          simp [dottedAux, noBare, this]
        · by_cases hdn : d = '\n'
          · subst hdn
            have := ih t2 (by simp only [List.length_cons] at hlen; omega) true
            simp [dottedAux, noBare, this]
          · have := ih (d :: t2)
              (by simp only [List.length_cons] at hlen ⊢; omega) true
            simp [dottedAux, noBare, hdn, this]
      · by_cases hcn : c = '\n'
        · subst hcn
          have := ih t (by simp only [List.length_cons] at hlen; omega) true
          simp [dottedAux, noBare, this]
        · have := ih t (by simp only [List.length_cons] at hlen; omega) false
          by_cases hdot : b = true ∧ c = '.'
          · rcases hdot with ⟨hb, hc⟩
            subst hb; subst hc
            simp [dottedAux, noBare, this]
          · simp [dottedAux, noBare, hcr, hcn, hdot, this]

/-- Counterexample to C6 as stated: the body `a` contains no bare CR or
LF, yet dot-stuffing followed by dot-unstuffing returns `a` with a CRLF
appended, not `a`: the round trip is the identity only on bodies that
end at a line boundary. -/
theorem dotted_roundtrip_cex :
    noBare "a".toList = true
    ∧ unstuff (dotted "a".toList) = some "a\r\n".toList
    ∧ "a\r\n".toList ≠ "a".toList := by
  decide

/-- C6 as amended: dotted normalizes every lone CR and lone LF (and
each CRLF pair) to CRLF — its output never contains a bare CR or LF —
prefixes an extra dot to every line beginning with a dot, and appends
the dot-CRLF terminator, adding a CRLF first when the body does not end
at a line boundary; consequently dot-stuffing followed by
dot-unstuffing is the identity on any body with no bare CR or LF that
is empty or ends with CRLF. -/
theorem dotted_roundtrip :
    (∀ (s : List Char) (b : Bool), noBare (dottedAux s b) = true)
    ∧ (∀ s : List Char, noBare s = true → (s = [] ∨ endsCrlf s = true) →
        unstuff (dotted s) = some s) := by
  constructor
  · intro s b
    exact noBare_dottedAux s.length s le_rfl b
  · intro s hnb hor
    exact (unstuff_dottedAux s.length s le_rfl hnb).1 hor

/-- Witness for the amended C6 at a concrete body ending in CRLF, with
a dot-initial line and an empty line. -/
theorem dotted_roundtrip_witness :
    noBare "Subject: hi\r\n\r\n.dot line\r\n".toList = true
    ∧ ("Subject: hi\r\n\r\n.dot line\r\n".toList = ([] : List Char)
        ∨ endsCrlf "Subject: hi\r\n\r\n.dot line\r\n".toList = true)
    ∧ unstuff (dotted "Subject: hi\r\n\r\n.dot line\r\n".toList) =
        some "Subject: hi\r\n\r\n.dot line\r\n".toList := by
  refine ⟨by decide, Or.inr (by decide), ?_⟩
  exact dotted_roundtrip.2 _ (by decide) (Or.inr (by decide))

theorem runQueueAux_spawns : ∀ (rows : List QueueRow) (count d : Nat),
    (runQueueAux rows count d).1 =
      spawnEnum (rows.filter (fun r => decide (r.delay ≤ 0))) count := by
  intro rows
  induction rows with
  | nil => intro count d; rfl
  | cons r t ih =>
    intro count d
    by_cases h : r.delay ≤ 0
    · simp [runQueueAux, h, List.filter_cons, spawnEnum, ih]
    · by_cases h2 : (d : Int) > r.delay
      · simp [runQueueAux, h, h2, List.filter_cons, ih]
      · simp [runQueueAux, h, h2, List.filter_cons, ih]

theorem runQueueAux_delay : ∀ (rows : List QueueRow) (count d : Nat),
    (runQueueAux rows count d).2 =
      (match minPosDelay rows with
       | none => d
       | some m => min d m) := by
  intro rows
  induction rows with
  | nil => intro count d; rfl
  | cons r t ih =>
    intro count d
    by_cases h : r.delay ≤ 0
    · have hnp : ¬ 0 < r.delay := by omega
      simp only [runQueueAux, if_pos h, minPosDelay, if_neg hnp]
      exact ih (count + 1) d
    · have hp : 0 < r.delay := by omega
      by_cases h2 : (d : Int) > r.delay
      · have hle : r.delay.toNat ≤ d := by omega
        simp only [runQueueAux, if_neg h, if_pos h2, minPosDelay, if_pos hp]
        rw [ih count r.delay.toNat]
        rcases hmp : minPosDelay t with _ | m
        · show r.delay.toNat = min d r.delay.toNat
          exact (min_eq_right hle).symm
        · show min r.delay.toNat m = min d (min r.delay.toNat m)
          exact (min_eq_right (le_trans (min_le_left _ _) hle)).symm
      · have hge : d ≤ r.delay.toNat := by omega
        simp only [runQueueAux, if_neg h, if_neg h2, minPosDelay, if_pos hp]
        rw [ih count d]
        rcases hmp : minPosDelay t with _ | m
        · show d = min d r.delay.toNat
          exact (min_eq_left hge).symm
        · show min d m = min d (min r.delay.toNat m)
          rw [← min_assoc, min_eq_left hge]

theorem minPosDelay_lt (rows : List QueueRow)
    (hb : ∀ r ∈ rows, r.delay < 4294967295) :
    ∀ m, minPosDelay rows = some m → m < 4294967295 := by
  induction rows with
  | nil => intro m h; simp [minPosDelay] at h
  | cons r t ih =>
    intro m h
    have hbr := hb r (List.mem_cons_self r t)
    have hbt : ∀ x ∈ t, x.delay < 4294967295 :=
      fun x hx => hb x (List.mem_cons_of_mem r hx)
    by_cases hp : 0 < r.delay
    · simp only [minPosDelay, if_pos hp] at h
      rcases hmp : minPosDelay t with _ | m2
      · rw [hmp] at h
        simp at h
        omega
      · rw [hmp] at h
        simp at h
        have := ih hbt m2 hmp
        omega
    · simp only [minPosDelay, if_neg hp] at h
      exact ih hbt m h

/-- Counterexample to C7 as stated: with SPOOLINTERVAL = 900 seconds,
a delivery whose only recipient was last attempted 30 minutes ago gets
delay -900 (not 1800) from the queue query, so a DeliveryAgent IS
spawned for it; and for a row with positive delay 1800, the timer is
created after the row loop but the trailing reset() of the same
execute() entry deletes it, so no wake-up timer at the minimum
positive delay survives the run. -/
theorem spool_delay_cex :
    rowDelay (some (10000 - 1800)) none 10000 = -900
    ∧ rowDelay (some (10000 - 1800)) none 10000 ≤ 0
    ∧ (execRowsPass [⟨42, rowDelay (some (10000 - 1800)) none 10000⟩] 0 false).spawned
        = [(42, 0)]
    ∧ (execRowsPass [⟨7, 1800⟩] 0 false).spawned = []
    ∧ (execRowsPass [⟨7, 1800⟩] 0 false).armed = some 1800
    ∧ (execRowsPass [⟨7, 1800⟩] 0 false).timer = none := by
  decide

/-- C7 as amended: on the queue-run entry that processes the returned
rows, each row with delay at most 0 spawns a DeliveryAgent staggered by
5 seconds times the number of agents already pending (the still-working
agents plus those spawned earlier in the same run); no agent is spawned
for a row with positive delay, and a wake-up timer is created at the
minimum positive delay — but the trailing reset() of the same entry
deletes it at once, leaving a 1-second re-run timer exactly when a
deliveries_updated notification arrived during the run (reset()'s own
comment says it spares the Timer, and the code logs that it will
process the queue again, so this deletion looks like a slip).  A
recipient Delayed with last_attempt 30 minutes ago yields delay -900,
the spool interval being 900 seconds, and therefore gets an agent. -/
theorem spool_queue_run (rows : List QueueRow) (agents0 : Nat) (again : Bool)
    (hb : ∀ r ∈ rows, r.delay < 4294967295) :
    (execRowsPass rows agents0 again).spawned =
      spawnEnum (rows.filter (fun r => decide (r.delay ≤ 0))) agents0
    ∧ (execRowsPass rows agents0 again).armed = minPosDelay rows
    ∧ (execRowsPass rows agents0 again).timer = (if again then some 1 else none)
    ∧ rowDelay (some (-1800)) none 0 = -900 := by
  refine ⟨runQueueAux_spawns rows agents0 4294967295, ?_, rfl, by decide⟩
  show (if (runQueueAux rows agents0 4294967295).2 < 4294967295
        then some (runQueueAux rows agents0 4294967295).2 else none) =
       minPosDelay rows
  rw [runQueueAux_delay rows agents0 4294967295]
  rcases hmp : minPosDelay rows with _ | m
  · simp
  · have hm := minPosDelay_lt rows hb m hmp
    have hmin : min 4294967295 m = m := min_eq_right (by omega)
    simp [hmin, hm]

/-- Witness for the amended C7 at concrete rows, with two agents from
earlier runs still working and a notification received during the run:
the due row spawns an agent staggered 10 seconds, the timer is created
for 300 seconds and then replaced by the 1-second re-run timer. -/
theorem spool_queue_run_witness :
    (∀ r ∈ ([⟨1, -900⟩, ⟨2, 300⟩] : List QueueRow), r.delay < 4294967295)
    ∧ (execRowsPass [⟨1, -900⟩, ⟨2, 300⟩] 2 true).spawned =
        spawnEnum (([⟨1, -900⟩, ⟨2, 300⟩] : List QueueRow).filter
          (fun r => decide (r.delay ≤ 0))) 2
    ∧ (execRowsPass [⟨1, -900⟩, ⟨2, 300⟩] 2 true).armed =
        minPosDelay [⟨1, -900⟩, ⟨2, 300⟩]
    ∧ (execRowsPass [⟨1, -900⟩, ⟨2, 300⟩] 2 true).timer =
        (if true then some 1 else none) :=
  ⟨by decide, (spool_queue_run [⟨1, -900⟩, ⟨2, 300⟩] 2 true (by decide)).1,
   (spool_queue_run [⟨1, -900⟩, ⟨2, 300⟩] 2 true (by decide)).2.1,
   (spool_queue_run [⟨1, -900⟩, ⟨2, 300⟩] 2 true (by decide)).2.2.1⟩

theorem spoolStep_smPresent (s : SpoolState) (e : SpoolEvent)
    (hsm : s.smPresent = false) : (spoolStep s e).smPresent = false := by
  cases e with
  | startRun rows w =>
    by_cases ht : s.t = none
    · simp [spoolStep, ht, hsm]
    · rcases hq : s.q with _ | rows2
      · simp [spoolStep, ht, hq, hsm]
      · simp [spoolStep, ht, hq, hsm]
  | queryDone =>
    rcases hq : s.q with _ | rows2
    · simp [spoolStep, hq, hsm]
    · simp [spoolStep, hq, hsm]
  | signal => simp [spoolStep, hsm]
  | agentCommitFail => simp [spoolStep, spoolShutdown]
  | agentCommitOk => simpa [spoolStep] using hsm

theorem spoolStep_flag (s : SpoolState) (e : SpoolEvent)
    (hfl : s.shutdownFlag = true) : (spoolStep s e).shutdownFlag = true := by
  cases e with
  | startRun rows w =>
    by_cases ht : s.t = none
    · simp [spoolStep, ht, hfl]
    · rcases hq : s.q with _ | rows2
      · simp [spoolStep, ht, hq, hfl]
      · simp [spoolStep, ht, hq, hfl]
  | queryDone =>
    rcases hq : s.q with _ | rows2
    · simp [spoolStep, hq, hfl]
    · simp [spoolStep, hq, hfl]
  | signal =>
    rcases hq : s.q with _ | rows2 <;> by_cases hsm : s.smPresent = true <;>
      simp [spoolStep, hq, hsm, hfl]
  | agentCommitFail => simp [spoolStep, spoolShutdown]
  | agentCommitOk => simpa [spoolStep] using hfl

theorem spoolRun_dead : ∀ (evs : List SpoolEvent) (s : SpoolState),
    s.smPresent = false → s.shutdownFlag = true →
    (spoolRun s evs).smPresent = false
    ∧ (spoolRun s evs).shutdownFlag = true := by
  intro evs
  induction evs with
  | nil => intro s hsm hfl; exact ⟨hsm, hfl⟩
  | cons e t ih =>
    intro s hsm hfl
    exact ih (spoolStep s e) (spoolStep_smPresent s e hsm)
      (spoolStep_flag s e hfl)

theorem spoolStep_frozen (s : SpoolState) (e : SpoolEvent)
    (hsm : s.smPresent = false) (hfl : s.shutdownFlag = true)
    (ht : s.t = none) (hq : s.q = .idle) :
    spoolStep s e = s := by
  obtain ⟨sm, fl, t, q, ag, w, ac⟩ := s
  dsimp only at hsm hfl ht hq
  subst hsm; subst hfl; subst ht; subst hq
  cases e <;> rfl

theorem spoolRun_frozen : ∀ (evs : List SpoolEvent) (s : SpoolState),
    s.smPresent = false → s.shutdownFlag = true →
    s.t = none → s.q = .idle →
    spoolRun s evs = s := by
  intro evs
  induction evs with
  | nil => intro s _ _ _ _; rfl
  | cons e t ih =>
    intro s hsm hfl ht hq
    rw [show spoolRun s (e :: t) = spoolRun (spoolStep s e) t from rfl,
      spoolStep_frozen s e hsm hfl ht hq]
    exact ih s hsm hfl ht hq

/-- Counterexample to C8 as stated: SpoolManager::shutdown drops the
singleton and sets the flag, but neither is consulted on the way into
execute(): a queue query in flight at the moment of shutdown still
completes, the database re-invokes the manager object, and the due row
constructs a DeliveryAgent — so a new DeliveryAgent IS created after
shutdown. -/
theorem spool_shutdown_cex :
    (spoolStep (⟨true, false, none, .pending [⟨9, -1⟩], false, 0, 0⟩ : SpoolState)
        .agentCommitFail).smPresent = false
    ∧ (spoolStep (⟨true, false, none, .pending [⟨9, -1⟩], false, 0, 0⟩ : SpoolState)
        .agentCommitFail).shutdownFlag = true
    ∧ (⟨true, false, none, .pending [⟨9, -1⟩], false, 0, 0⟩ : SpoolState).agentsCreated
        = 0
    ∧ (spoolRun (⟨true, false, none, .pending [⟨9, -1⟩], false, 0, 0⟩ : SpoolState)
        [.agentCommitFail, .queryDone]).agentsCreated = 1 := by
  decide

/-- C8 as amended: a DeliveryAgent commit failure invokes
SpoolManager::shutdown, which disarms the current singleton's timer,
drops the singleton and sets the shutdown flag; the singleton stays
dropped and the flag stays set along every later event sequence (setup
runs once, from main, before these events), so the deliveries_updated
signal path — the only one that checks ::sm — stays dead.  But
execute() consults neither ::sm nor the flag (which is never read), so
only when no queue query is outstanding at shutdown is the
post-shutdown state frozen, with no DeliveryAgent ever created again;
a query in flight still completes and spawns (see the
counterexample). -/
theorem spool_kill_switch (g : SpoolState) (evs : List SpoolEvent) :
    (spoolStep g .agentCommitFail).smPresent = false
    ∧ (spoolStep g .agentCommitFail).shutdownFlag = true
    ∧ (spoolStep g .agentCommitFail).t = (if g.smPresent then none else g.t)
    ∧ (spoolRun (spoolStep g .agentCommitFail) evs).smPresent = false
    ∧ (spoolRun (spoolStep g .agentCommitFail) evs).shutdownFlag = true
    ∧ (g.smPresent = true → g.q = .idle →
        spoolRun (spoolStep g .agentCommitFail) evs =
          spoolStep g .agentCommitFail) := by
  have hd := spoolRun_dead evs (spoolStep g .agentCommitFail) rfl rfl
  refine ⟨rfl, rfl, rfl, hd.1, hd.2, ?_⟩
  intro hsm hq
  apply spoolRun_frozen evs (spoolStep g .agentCommitFail) rfl rfl
  · show (if g.smPresent then none else g.t) = none
    rw [hsm]
    rfl
  · show g.q = QueryPhase.idle
    exact hq

/-- Witness for the amended C8 at a concrete quiescent state: shutdown
with no query outstanding, followed by a notification, a timer firing,
a query completion and a normal agent exit, leaves the post-shutdown
state untouched — in particular no agent is created. -/
theorem spool_kill_switch_witness :
    ((⟨true, false, some 3, .idle, true, 2, 5⟩ : SpoolState).smPresent = true)
    ∧ ((⟨true, false, some 3, .idle, true, 2, 5⟩ : SpoolState).q = .idle)
    ∧ spoolRun
        (spoolStep (⟨true, false, some 3, .idle, true, 2, 5⟩ : SpoolState)
          .agentCommitFail)
        [.signal, .startRun [⟨1, 4⟩] 2, .queryDone, .agentCommitOk] =
        spoolStep (⟨true, false, some 3, .idle, true, 2, 5⟩ : SpoolState)
          .agentCommitFail := by
  refine ⟨rfl, rfl, ?_⟩
  exact (spool_kill_switch ⟨true, false, some 3, .idle, true, 2, 5⟩
    [.signal, .startRun [⟨1, 4⟩] 2, .queryDone, .agentCommitOk]).2.2.2.2.2 rfl rfl

/-- C10: Plain::parse succeeds exactly when the response splits into
three NUL-separated fields with a non-empty authentication id and
password, an empty authorization id being replaced by the
authentication id; and Plain::parseResponse moves to Failed, leaving
login and secret unset, whenever parsing fails or the (replaced)
authorization id differs from the authentication id. -/
theorem plain_parse_characterization :
    (∀ r a n p : List Char, splitNul r = [a, n, p] → n ≠ [] → p ≠ [] →
       plainParse r = some (if a = [] then n else a, n, p))
    ∧ (∀ r : List Char,
       plainParse r = none ↔
         ¬ ∃ a n p, splitNul r = [a, n, p] ∧ n ≠ [] ∧ p ≠ [])
    ∧ (∀ (m : PlainMech) (r : List Char),
       (plainParse r = none ∨ ∃ a n p, plainParse r = some (a, n, p) ∧ a ≠ n) →
       plainParseResponse m r = { m with st := .failed }) := by
  refine ⟨?_, ?_, ?_⟩
  · intro r a n p hsplit hn hp
    unfold plainParse
    rw [hsplit]
    simp [hn, hp]
  · intro r
    unfold plainParse
    rcases h : splitNul r with _ | ⟨a, _ | ⟨n, _ | ⟨p, _ | ⟨q, t⟩⟩⟩⟩ <;> simp
  · intro m r h
    rcases h with h | ⟨a, n, p, h, hne⟩
    · unfold plainParseResponse
      rw [h]
    · unfold plainParseResponse
      rw [h]
      have hna : n ≠ a := fun hc => hne hc.symm
      simp [hna]

/-- Witness for C10 at concrete inputs: a well-formed PLAIN response
with empty authorization id parses, and a malformed response drives
parseResponse to Failed without recording login or secret. -/
theorem plain_parse_characterization_witness :
    splitNul "\x00bob\x00sesame".toList =
      [[], "bob".toList, "sesame".toList]
    ∧ plainParse "\x00bob\x00sesame".toList =
        some (if ([] : List Char) = [] then "bob".toList else [],
              "bob".toList, "sesame".toList)
    ∧ plainParseResponse ⟨.awaitingInitialResponse, none, none⟩ "junk".toList =
        ⟨.failed, none, none⟩ := by
  refine ⟨by decide, ?_, ?_⟩
  · exact plain_parse_characterization.1 "\x00bob\x00sesame".toList
      [] "bob".toList "sesame".toList (by decide) (by decide) (by decide)
  · exact plain_parse_characterization.2.2 ⟨.awaitingInitialResponse, none, none⟩
      "junk".toList (Or.inl (by decide))

end Aox
